import Mathlib

/-!
A shallow embedding of the `KVStorage` class (file `KVStorage.cpp`): an
in-memory key-value store with per-key TTL expiration.  Keys and values are
C++ `std::string`s, modelled as lists of characters compared
lexicographically; `uint64_t` values are modelled as natural numbers with
explicit reduction modulo `2 ^ 64` where the C++ arithmetic can overflow.
The two containers `kv_map_` (a `std::map` ordered by key) and
`expiration_set_` (a `std::set` ordered by `timedSetComparator`) are
modelled as strictly sorted lists.  Every method that reads the injected
clock receives the clock's current value `now` as an extra argument.
-/

set_option maxHeartbeats 1000000

namespace KV

/-- A C++ `std::string`: a sequence of characters, compared lexicographically. -/
abbrev Str := List Char

/-- `maxTime_ = std::numeric_limits<uint64_t>::max()`, the sentinel death
time used for entries with infinite lifetime (`ttl == 0`). -/
def maxTime_ : Nat := 2 ^ 64 - 1

/-- `struct timedKVMember { std::string value; uint64_t death_time; }`,
the mapped type of `kv_map_`.  A default-constructed member has an empty
value and death time `0`. -/
structure timedKVMember where
  value : Str
  death_time : Nat
deriving DecidableEq

/-- `struct timedSetMember { std::string map_key; uint64_t death_time; }`,
the element type of `expiration_set_`. -/
structure timedSetMember where
  map_key : Str
  death_time : Nat
deriving DecidableEq

/-- `timedSetComparator::operator()`: order primarily by ascending
`death_time`, break ties by ascending `map_key`. -/
def timedSetComparator (lhs rhs : timedSetMember) : Prop :=
  lhs.death_time < rhs.death_time ∨
    (lhs.death_time = rhs.death_time ∧ lhs.map_key < rhs.map_key)

instance instDecidableTimedSetComparator (lhs rhs : timedSetMember) :
    Decidable (timedSetComparator lhs rhs) :=
  inferInstanceAs (Decidable (lhs.death_time < rhs.death_time ∨
    (lhs.death_time = rhs.death_time ∧ lhs.map_key < rhs.map_key)))

/-- `kv_map_.find(key)` on the sorted association list backing `kv_map_`. -/
def mapFind : List (Str × timedKVMember) → Str → Option timedKVMember
  | [], _ => none
  | (k0, v0) :: rest, k => if k = k0 then some v0 else mapFind rest k

/-- `kv_map_.contains(key)`. -/
def mapContains (m : List (Str × timedKVMember)) (k : Str) : Bool :=
  (mapFind m k).isSome

/-- Ordered insert-or-assign: the effect of `kv_map_[key] = v;` on the
sorted association list backing the `std::map`. -/
def mapInsert : List (Str × timedKVMember) → Str → timedKVMember →
    List (Str × timedKVMember)
  | [], k, v => [(k, v)]
  | (k0, v0) :: rest, k, v =>
    if k < k0 then (k, v) :: (k0, v0) :: rest
    else if k = k0 then (k, v) :: rest
    else (k0, v0) :: mapInsert rest k v

/-- `kv_map_.erase(key)`. -/
def mapErase : List (Str × timedKVMember) → Str → List (Str × timedKVMember)
  | [], _ => []
  | (k0, v0) :: rest, k => if k = k0 then rest else (k0, v0) :: mapErase rest k

/-- A read through `kv_map_[key]` (`std::map::operator[]`): returns the
mapped member, default-constructing and inserting one when the key is
absent.  The second component is the map after the access. -/
def mapBracket (m : List (Str × timedKVMember)) (k : Str) :
    timedKVMember × List (Str × timedKVMember) :=
  match mapFind m k with
  | some v => (v, m)
  | none => (⟨[], 0⟩, mapInsert m k ⟨[], 0⟩)

/-- `expiration_set_.emplace(...)`: ordered insert into the `std::set`,
a no-op when an element equivalent under `timedSetComparator` is present. -/
def setInsert : List timedSetMember → timedSetMember → List timedSetMember
  | [], x => [x]
  | y :: rest, x =>
    if timedSetComparator x y then x :: y :: rest
    else if timedSetComparator y x then y :: setInsert rest x
    else y :: rest

/-- The storage: `kv_map_` sorted by key, `expiration_set_` sorted by
`timedSetComparator`. -/
structure KVStorage where
  kv_map_ : List (Str × timedKVMember)
  expiration_set_ : List timedSetMember
deriving DecidableEq

/-- The default-initialised storage (both containers empty), as at the
start of the C++ constructor body. -/
def KVStorage.empty : KVStorage := ⟨[], []⟩

/-- `getDeathTime_(ttl)`: `maxTime_` when `ttl == 0`, otherwise
`uint64_t(ttl) + uint64_t(clock_())`, whose addition wraps modulo `2 ^ 64`. -/
def getDeathTime_ (now ttl : Nat) : Nat :=
  if ttl = 0 then maxTime_ else (ttl + now) % 2 ^ 64

/-- `tryToRemoveFromSet(key)`: looks up `kv_map_[key].death_time` (via
`operator[]`, which default-inserts when absent) and erases the exact
element `{key, death_time}` from `expiration_set_` when found. -/
def KVStorage.tryToRemoveFromSet (s : KVStorage) (key : Str) : KVStorage :=
  let p := mapBracket s.kv_map_ key
  let tmp : timedSetMember := ⟨key, p.1.death_time⟩
  { kv_map_ := p.2, expiration_set_ := s.expiration_set_.erase tmp }

/-- `set(key, value, ttl)` with the clock reading `now`. -/
def KVStorage.set (s : KVStorage) (now : Nat) (key value : Str) (ttl : Nat) :
    KVStorage :=
  let s1 := if mapContains s.kv_map_ key then s.tryToRemoveFromSet key else s
  let dt := getDeathTime_ now ttl
  let s2 := if ttl ≠ 0
    then { s1 with expiration_set_ := setInsert s1.expiration_set_ ⟨key, dt⟩ }
    else s1
  { s2 with kv_map_ := mapInsert s2.kv_map_ key ⟨value, dt⟩ }

/-- `remove(key)`: result flag and the storage after the call. -/
def KVStorage.remove (s : KVStorage) (key : Str) : Bool × KVStorage :=
  if mapContains s.kv_map_ key then
    let s1 := s.tryToRemoveFromSet key
    (true, { s1 with kv_map_ := mapErase s1.kv_map_ key })
  else (false, s)

/-- `keyAvailable(key)` with the clock reading `now`: the key exists and,
when its `{key, death_time}` pair is in `expiration_set_`, its death time
is still in the future; a key absent from the set (infinite TTL) is
available. -/
def KVStorage.keyAvailable (s : KVStorage) (now : Nat) (key : Str) : Bool :=
  if mapContains s.kv_map_ key then
    let tmp : timedSetMember :=
      ⟨key, ((mapFind s.kv_map_ key).getD ⟨[], 0⟩).death_time⟩
    if tmp ∈ s.expiration_set_ then decide (tmp.death_time > now) else true
  else false

/-- `get(key)` with the clock reading `now`: result and the storage after
the call (the `kv_map_[key]` access goes through `operator[]`). -/
def KVStorage.get (s : KVStorage) (now : Nat) (key : Str) :
    Option Str × KVStorage :=
  if s.keyAvailable now key then
    let p := mapBracket s.kv_map_ key
    (some p.1.value, { s with kv_map_ := p.2 })
  else (none, s)

/-- The iteration of `getManySorted`: walk the map in key order while
`count > 0`, skip entries with `death_time <= now`, collect entries with
key `>=` the start key and decrement `count` for each one collected. -/
def getManySortedLoop (now : Nat) (key : Str) :
    List (Str × timedKVMember) → Nat → List (Str × Str)
  | [], _ => []
  | (k0, e) :: rest, count =>
    if count = 0 then []
    else if e.death_time ≤ now then getManySortedLoop now key rest count
    else if key ≤ k0 then (k0, e.value) :: getManySortedLoop now key rest (count - 1)
    else getManySortedLoop now key rest count

/-- `getManySorted(key, count)` with the clock reading `now`: result and
the storage after the call (the walk only reads). -/
def KVStorage.getManySorted (s : KVStorage) (now : Nat) (key : Str)
    (count : Nat) : List (Str × Str) × KVStorage :=
  if count = 0 then ([], s)
  else (getManySortedLoop now key s.kv_map_ count, s)

/-- `removeOneExpiredEntry()` with the clock reading `now`: inspect the
minimum of `expiration_set_`; when it exists and its death time is `<= now`,
capture `(key, kv_map_[key].value)`, `remove(key)`, and return the capture. -/
def KVStorage.removeOneExpiredEntry (s : KVStorage) (now : Nat) :
    Option (Str × Str) × KVStorage :=
  match s.expiration_set_ with
  | [] => (none, s)
  | m :: _ =>
    if m.death_time > now then (none, s)
    else
      let key := m.map_key
      let p := mapBracket s.kv_map_ key
      let removed := (key, p.1.value)
      let s1 : KVStorage := { s with kv_map_ := p.2 }
      (some removed, (s1.remove key).2)

/-- The constructor's loop: `for (auto [key, value, ttl] : entries) set(...)`,
with the clock reading `now` at every iteration. -/
def constructLoop : KVStorage → Nat → List (Str × Str × Nat) → KVStorage
  | s, _, [] => s
  | s, now, (k, v, ttl) :: rest => constructLoop (s.set now k v ttl) now rest

/-- The `KVStorage` constructor: start from the default-initialised state
and apply `set` to each entry of the input span in order. -/
def KVStorage.construct (now : Nat) (entries : List (Str × Str × Nat)) :
    KVStorage :=
  constructLoop KVStorage.empty now entries

/-- Repeatedly call `removeOneExpiredEntry` at the fixed clock reading
`now`, collecting the returned entries, for at most `fuel` calls. -/
def KVStorage.drainExpired (s : KVStorage) (now : Nat) : Nat → List (Str × Str)
  | 0 => []
  | fuel + 1 =>
    match s.removeOneExpiredEntry now with
    | (none, _) => []
    | (some p, s1) => p :: s1.drainExpired now fuel

/-- The consistency invariant tying `kv_map_` and `expiration_set_`
together: both lists are strictly sorted by their container's order; every
set element points at a live map entry with the same death time; and every
map entry whose death time is not the `maxTime_` sentinel has its
`(key, death_time)` pair in the set. -/
def Inv (s : KVStorage) : Prop :=
  s.kv_map_.Pairwise (fun a b => a.1 < b.1) ∧
  s.expiration_set_.Pairwise timedSetComparator ∧
  (∀ m ∈ s.expiration_set_,
    Option.map timedKVMember.death_time (mapFind s.kv_map_ m.map_key) =
      some m.death_time) ∧
  (∀ p ∈ s.kv_map_, p.2.death_time ≠ maxTime_ →
    (⟨p.1, p.2.death_time⟩ : timedSetMember) ∈ s.expiration_set_)

instance instDecidableRelMapKeyLt :
    DecidableRel (fun a b : Str × timedKVMember => a.1 < b.1) :=
  fun a b => inferInstanceAs (Decidable (a.1 < b.1))

instance instDecidableInv (s : KVStorage) : Decidable (Inv s) := by
  unfold Inv
  have : DecidableRel timedSetComparator := instDecidableTimedSetComparator
  infer_instance

theorem tsc_irrefl (x : timedSetMember) : ¬ timedSetComparator x x := by
  simp [timedSetComparator]

theorem tsc_trans {x y z : timedSetMember} (h1 : timedSetComparator x y)
    (h2 : timedSetComparator y z) : timedSetComparator x z := by
  rcases h1 with h1 | ⟨e1, k1⟩ <;> rcases h2 with h2 | ⟨e2, k2⟩
  · exact Or.inl (lt_trans h1 h2)
  · exact Or.inl (e2 ▸ h1)
  · exact Or.inl (e1 ▸ h2)
  · exact Or.inr ⟨e1.trans e2, lt_trans k1 k2⟩

theorem tsc_trichotomy (x y : timedSetMember) :
    timedSetComparator x y ∨ x = y ∨ timedSetComparator y x := by
  rcases lt_trichotomy x.death_time y.death_time with h | h | h
  · exact Or.inl (Or.inl h)
  · rcases lt_trichotomy x.map_key y.map_key with hk | hk | hk
    · exact Or.inl (Or.inr ⟨h, hk⟩)
    · refine Or.inr (Or.inl ?_)
      cases x
      cases y
      simp_all
    · exact Or.inr (Or.inr (Or.inr ⟨h.symm, hk⟩))
  · exact Or.inr (Or.inr (Or.inl h))

theorem tsc_asymm {x y : timedSetMember} (h : timedSetComparator x y) :
    ¬ timedSetComparator y x :=
  fun h2 => tsc_irrefl x (tsc_trans h h2)

instance : Inhabited timedKVMember := ⟨⟨[], 0⟩⟩

instance : Inhabited timedSetMember := ⟨⟨[], 0⟩⟩

theorem set_nodup {l : List timedSetMember}
    (h : l.Pairwise timedSetComparator) : l.Nodup := by
  refine List.Pairwise.imp ?_ h
  intro a b hab he
  exact tsc_irrefl a (he ▸ hab)

theorem mapFind_eq_none {m : List (Str × timedKVMember)} {k : Str} :
    mapFind m k = none ↔ ∀ p ∈ m, p.1 ≠ k := by
  induction m with
  | nil => simp [mapFind]
  | cons hd tl ih =>
    obtain ⟨k0, v0⟩ := hd
    by_cases hk : k = k0
    · subst hk
      simp [mapFind]
    · simp [mapFind, hk, ih, Ne.symm hk]

theorem mapFind_mem {m : List (Str × timedKVMember)} {k : Str}
    {v : timedKVMember} (h : mapFind m k = some v) : (k, v) ∈ m := by
  induction m with
  | nil => simp [mapFind] at h
  | cons hd tl ih =>
    obtain ⟨k0, v0⟩ := hd
    by_cases hk : k = k0
    · subst hk
      simp [mapFind] at h
      simp [h]
    · simp [mapFind, hk] at h
      exact List.mem_cons_of_mem _ (ih h)

theorem mem_mapFind {m : List (Str × timedKVMember)} {k : Str}
    {v : timedKVMember} (hm : m.Pairwise (fun a b => a.1 < b.1))
    (h : (k, v) ∈ m) : mapFind m k = some v := by
  induction m with
  | nil => simp at h
  | cons hd tl ih =>
    obtain ⟨k0, v0⟩ := hd
    rw [List.pairwise_cons] at hm
    rcases List.mem_cons.mp h with he | ht
    · rw [Prod.mk.injEq] at he
      obtain ⟨rfl, rfl⟩ := he
      simp [mapFind]
    · have hk0 : k0 < k := hm.1 (k, v) ht
      have hne : k ≠ k0 := fun e => absurd (e ▸ hk0) (lt_irrefl _)
      simp [mapFind, hne]
      exact ih hm.2 ht

theorem mapFind_mapInsert_self (m : List (Str × timedKVMember)) (k : Str)
    (v : timedKVMember) : mapFind (mapInsert m k v) k = some v := by
  induction m with
  | nil => simp [mapInsert, mapFind]
  | cons hd tl ih =>
    obtain ⟨k0, v0⟩ := hd
    by_cases h1 : k < k0
    · simp [mapInsert, h1, mapFind]
    · by_cases h2 : k = k0
      · simp [mapInsert, h1, h2, mapFind]
      · simp [mapInsert, h1, h2, mapFind, ih]

theorem mapFind_mapInsert_ne (m : List (Str × timedKVMember)) (k : Str)
    (v : timedKVMember) {q : Str} (h : q ≠ k) :
    mapFind (mapInsert m k v) q = mapFind m q := by
  induction m with
  | nil => simp [mapInsert, mapFind, h]
  | cons hd tl ih =>
    obtain ⟨k0, v0⟩ := hd
    by_cases h1 : k < k0
    · simp [mapInsert, h1, mapFind, h]
    · by_cases h2 : k = k0
      · subst h2
        simp [mapInsert, h1, mapFind, h]
      · simp [mapInsert, h1, h2, mapFind, ih]

theorem mem_mapInsert {m : List (Str × timedKVMember)} {k : Str}
    {v : timedKVMember} {p : Str × timedKVMember}
    (h : p ∈ mapInsert m k v) : p = (k, v) ∨ p ∈ m := by
  induction m with
  | nil => simpa [mapInsert] using h
  | cons hd tl ih =>
    obtain ⟨k0, v0⟩ := hd
    by_cases h1 : k < k0
    · simp only [mapInsert, if_pos h1] at h
      rcases List.mem_cons.mp h with he | h
      · exact Or.inl he
      · exact Or.inr h
    · by_cases h2 : k = k0
      · simp only [mapInsert, if_neg h1, if_pos h2] at h
        rcases List.mem_cons.mp h with he | h
        · exact Or.inl he
        · exact Or.inr (List.mem_cons_of_mem _ h)
      · simp only [mapInsert, if_neg h1, if_neg h2] at h
        rcases List.mem_cons.mp h with he | h
        · exact Or.inr (he ▸ List.mem_cons_self _ _)
        · rcases ih h with he | h
          · exact Or.inl he
          · exact Or.inr (List.mem_cons_of_mem _ h)

theorem mapInsert_pairwise {m : List (Str × timedKVMember)}
    (hm : m.Pairwise (fun a b => a.1 < b.1)) (k : Str) (v : timedKVMember) :
    (mapInsert m k v).Pairwise (fun a b => a.1 < b.1) := by
  induction m with
  | nil => simp [mapInsert]
  | cons hd tl ih =>
    obtain ⟨k0, v0⟩ := hd
    rw [List.pairwise_cons] at hm
    obtain ⟨hhd, htl⟩ := hm
    by_cases h1 : k < k0
    · simp only [mapInsert, if_pos h1]
      refine List.pairwise_cons.mpr ⟨?_, List.pairwise_cons.mpr ⟨hhd, htl⟩⟩
      intro p hp
      rcases List.mem_cons.mp hp with rfl | hp
      · exact h1
      · exact lt_trans h1 (hhd p hp)
    · by_cases h2 : k = k0
      · subst h2
        simp only [mapInsert, if_neg h1, if_pos rfl]
        exact List.pairwise_cons.mpr ⟨hhd, htl⟩
      · simp only [mapInsert, if_neg h1, if_neg h2]
        refine List.pairwise_cons.mpr ⟨?_, ih htl⟩
        intro p hp
        rcases mem_mapInsert hp with rfl | hp
        · rcases lt_trichotomy k k0 with h | h | h
          · exact absurd h h1
          · exact absurd h h2
          · exact h
        · exact hhd p hp

theorem mapErase_sublist (m : List (Str × timedKVMember)) (k : Str) :
    List.Sublist (mapErase m k) m := by
  induction m with
  | nil => simp [mapErase]
  | cons hd tl ih =>
    obtain ⟨k0, v0⟩ := hd
    by_cases h : k = k0
    · simp only [mapErase, if_pos h]
      exact List.sublist_cons_self _ _
    · simp only [mapErase, if_neg h]
      exact List.Sublist.cons₂ _ ih

theorem mapErase_pairwise {m : List (Str × timedKVMember)}
    (hm : m.Pairwise (fun a b => a.1 < b.1)) (k : Str) :
    (mapErase m k).Pairwise (fun a b => a.1 < b.1) :=
  hm.sublist (mapErase_sublist m k)

theorem mapFind_mapErase_self {m : List (Str × timedKVMember)}
    (hm : m.Pairwise (fun a b => a.1 < b.1)) (k : Str) :
    mapFind (mapErase m k) k = none := by
  induction m with
  | nil => simp [mapErase, mapFind]
  | cons hd tl ih =>
    obtain ⟨k0, v0⟩ := hd
    rw [List.pairwise_cons] at hm
    by_cases h : k = k0
    · subst h
      simp only [mapErase, if_pos rfl]
      refine mapFind_eq_none.mpr ?_
      intro p hp he
      exact absurd (he ▸ hm.1 p hp) (lt_irrefl _)
    · simp only [mapErase, if_neg h]
      simp [mapFind, h]
      exact ih hm.2

theorem mapFind_mapErase_ne (m : List (Str × timedKVMember)) (k : Str)
    {q : Str} (h : q ≠ k) : mapFind (mapErase m k) q = mapFind m q := by
  induction m with
  | nil => simp [mapErase]
  | cons hd tl ih =>
    obtain ⟨k0, v0⟩ := hd
    by_cases h0 : k = k0
    · subst h0
      simp only [mapErase, if_pos rfl]
      simp [mapFind, h]
    · simp only [mapErase, if_neg h0]
      simp [mapFind, ih]

theorem mem_mapErase_ne {m : List (Str × timedKVMember)} {k : Str}
    {p : Str × timedKVMember} (hm : m.Pairwise (fun a b => a.1 < b.1))
    (h : p ∈ mapErase m k) : p ∈ m ∧ p.1 ≠ k := by
  obtain ⟨pk, pv⟩ := p
  have hfind : mapFind (mapErase m k) pk = some pv :=
    mem_mapFind (mapErase_pairwise hm k) h
  by_cases he : pk = k
  · subst he
    rw [mapFind_mapErase_self hm] at hfind
    exact absurd hfind (by simp)
  · rw [mapFind_mapErase_ne m k he] at hfind
    exact ⟨mapFind_mem hfind, he⟩

theorem mem_setInsert {l : List timedSetMember} {x z : timedSetMember} :
    z ∈ setInsert l x ↔ z = x ∨ z ∈ l := by
  induction l with
  | nil => simp [setInsert]
  | cons y rest ih =>
    by_cases h1 : timedSetComparator x y
    · simp [setInsert, h1]
    · by_cases h2 : timedSetComparator y x
      · simp only [setInsert, if_neg h1, if_pos h2, List.mem_cons, ih]
        tauto
      · have hxy : x = y := by
          rcases tsc_trichotomy x y with h | h | h
          · exact absurd h h1
          · exact h
          · exact absurd h h2
        subst hxy
        simp only [setInsert, if_neg h1, List.mem_cons]
        tauto

theorem setInsert_pairwise {l : List timedSetMember}
    (hl : l.Pairwise timedSetComparator) (x : timedSetMember) :
    (setInsert l x).Pairwise timedSetComparator := by
  induction l with
  | nil => simp [setInsert]
  | cons y rest ih =>
    rw [List.pairwise_cons] at hl
    obtain ⟨hy, hrest⟩ := hl
    by_cases h1 : timedSetComparator x y
    · simp only [setInsert, if_pos h1]
      refine List.pairwise_cons.mpr ⟨?_, List.pairwise_cons.mpr ⟨hy, hrest⟩⟩
      intro z hz
      rcases List.mem_cons.mp hz with rfl | hz
      · exact h1
      · exact tsc_trans h1 (hy z hz)
    · by_cases h2 : timedSetComparator y x
      · simp only [setInsert, if_neg h1, if_pos h2]
        refine List.pairwise_cons.mpr ⟨?_, ih hrest⟩
        intro z hz
        rcases mem_setInsert.mp hz with rfl | hz
        · exact h2
        · exact hy z hz
      · simp only [setInsert, if_neg h1, if_neg h2]
        exact List.pairwise_cons.mpr ⟨hy, hrest⟩

theorem inv_set_key_unique {s : KVStorage} (hInv : Inv s)
    {m1 m2 : timedSetMember} (h1 : m1 ∈ s.expiration_set_)
    (h2 : m2 ∈ s.expiration_set_) (hk : m1.map_key = m2.map_key) : m1 = m2 := by
  obtain ⟨-, -, hsm, -⟩ := hInv
  have e1 := hsm m1 h1
  have e2 := hsm m2 h2
  rw [hk] at e1
  rw [e1] at e2
  cases m1
  cases m2
  simp_all

theorem mapContains_iff {m : List (Str × timedKVMember)} {k : Str} :
    mapContains m k = true ↔ ∃ v, mapFind m k = some v := by
  simp [mapContains, Option.isSome_iff_exists]

theorem mapBracket_of_found {m : List (Str × timedKVMember)} {k : Str}
    {v : timedKVMember} (h : mapFind m k = some v) : mapBracket m k = (v, m) := by
  simp [mapBracket, h]

theorem tryToRemoveFromSet_eq {s : KVStorage} {key : Str} {v : timedKVMember}
    (h : mapFind s.kv_map_ key = some v) :
    s.tryToRemoveFromSet key =
      ⟨s.kv_map_, s.expiration_set_.erase ⟨key, v.death_time⟩⟩ := by
  simp [KVStorage.tryToRemoveFromSet, mapBracket_of_found h, h]

theorem set_kv_map (s : KVStorage) (now : Nat) (key value : Str) (ttl : Nat) :
    (s.set now key value ttl).kv_map_ =
      mapInsert s.kv_map_ key ⟨value, getDeathTime_ now ttl⟩ := by
  unfold KVStorage.set
  by_cases hc : mapContains s.kv_map_ key = true
  · obtain ⟨v, hv⟩ := mapContains_iff.mp hc
    by_cases ht : ttl = 0 <;>
      simp [hc, ht, tryToRemoveFromSet_eq hv]
  · by_cases ht : ttl = 0 <;> simp [hc, ht]

theorem set_set_of_not_contains {s : KVStorage} {key : Str}
    (hc : ¬ mapContains s.kv_map_ key = true) (now : Nat) (value : Str)
    (ttl : Nat) :
    (s.set now key value ttl).expiration_set_ =
      if ttl = 0 then s.expiration_set_
      else setInsert s.expiration_set_ ⟨key, getDeathTime_ now ttl⟩ := by
  unfold KVStorage.set
  by_cases ht : ttl = 0 <;> simp [hc, ht]

theorem set_set_of_found {s : KVStorage} {key : Str} {v : timedKVMember}
    (h : mapFind s.kv_map_ key = some v) (now : Nat) (value : Str) (ttl : Nat) :
    (s.set now key value ttl).expiration_set_ =
      if ttl = 0 then s.expiration_set_.erase ⟨key, v.death_time⟩
      else setInsert (s.expiration_set_.erase ⟨key, v.death_time⟩)
        ⟨key, getDeathTime_ now ttl⟩ := by
  have hc : mapContains s.kv_map_ key = true := mapContains_iff.mpr ⟨v, h⟩
  unfold KVStorage.set
  by_cases ht : ttl = 0 <;> simp [hc, ht, tryToRemoveFromSet_eq h]

theorem remove_of_not_contains {s : KVStorage} {key : Str}
    (hc : ¬ mapContains s.kv_map_ key = true) : s.remove key = (false, s) := by
  simp [KVStorage.remove, hc]

theorem remove_of_found {s : KVStorage} {key : Str} {v : timedKVMember}
    (h : mapFind s.kv_map_ key = some v) :
    s.remove key = (true, ⟨mapErase s.kv_map_ key,
      s.expiration_set_.erase ⟨key, v.death_time⟩⟩) := by
  have hc : mapContains s.kv_map_ key = true := mapContains_iff.mpr ⟨v, h⟩
  simp [KVStorage.remove, hc, tryToRemoveFromSet_eq h]

theorem keyAvailable_of_found {s : KVStorage} {key : Str} {v : timedKVMember}
    (h : mapFind s.kv_map_ key = some v) (now : Nat) :
    s.keyAvailable now key =
      if (⟨key, v.death_time⟩ : timedSetMember) ∈ s.expiration_set_
      then decide (now < v.death_time) else true := by
  have hc : mapContains s.kv_map_ key = true := mapContains_iff.mpr ⟨v, h⟩
  simp [KVStorage.keyAvailable, hc, h]

theorem keyAvailable_of_none {s : KVStorage} {key : Str}
    (h : mapFind s.kv_map_ key = none) (now : Nat) :
    s.keyAvailable now key = false := by
  have hc : ¬ mapContains s.kv_map_ key = true := by simp [mapContains, h]
  simp [KVStorage.keyAvailable, hc]

theorem get_state (s : KVStorage) (now : Nat) (key : Str) :
    (s.get now key).2 = s := by
  unfold KVStorage.get
  by_cases ha : s.keyAvailable now key = true
  · have hc : mapContains s.kv_map_ key = true := by
      by_contra hc
      simp [KVStorage.keyAvailable, hc] at ha
    obtain ⟨v, hv⟩ := mapContains_iff.mp hc
    simp [ha, mapBracket_of_found hv]
  · simp [ha]

theorem get_fst_of_found {s : KVStorage} {key : Str} {v : timedKVMember}
    (h : mapFind s.kv_map_ key = some v) (now : Nat) :
    (s.get now key).1 =
      if s.keyAvailable now key = true then some v.value else none := by
  unfold KVStorage.get
  by_cases ha : s.keyAvailable now key = true <;>
    simp [ha, mapBracket_of_found h]

theorem get_fst_of_none {s : KVStorage} {key : Str}
    (h : mapFind s.kv_map_ key = none) (now : Nat) :
    (s.get now key).1 = none := by
  simp [KVStorage.get, keyAvailable_of_none h now]

theorem inv_set {s : KVStorage} (hInv : Inv s) (now : Nat) (key value : Str)
    (ttl : Nat) : Inv (s.set now key value ttl) := by
  obtain ⟨hmap, hset, hsm, hms⟩ := hInv
  have hkv := set_kv_map s now key value ttl
  have hmap2 : (s.set now key value ttl).kv_map_.Pairwise
      (fun a b => a.1 < b.1) := by
    rw [hkv]
    exact mapInsert_pairwise hmap key _
  by_cases hc : mapContains s.kv_map_ key = true
  · obtain ⟨v, hv⟩ := mapContains_iff.mp hc
    have hes := set_set_of_found hv now value ttl
    have hE : (s.expiration_set_.erase
        (⟨key, v.death_time⟩ : timedSetMember)).Pairwise timedSetComparator :=
      hset.sublist (List.erase_sublist _ _)
    refine ⟨hmap2, ?_, ?_, ?_⟩
    · rw [hes]
      by_cases ht : ttl = 0
      · simpa [ht] using hE
      · simpa [ht] using setInsert_pairwise hE _
    · intro m hm
      rw [hes] at hm
      rw [hkv]
      have hmain : m ∈ s.expiration_set_.erase
          (⟨key, v.death_time⟩ : timedSetMember) →
          Option.map timedKVMember.death_time
            (mapFind (mapInsert s.kv_map_ key
              ⟨value, getDeathTime_ now ttl⟩) m.map_key) =
            some m.death_time := by
        intro hmE
        have hmS : m ∈ s.expiration_set_ := List.erase_subset _ _ hmE
        by_cases hkeq : m.map_key = key
        · have hme : m = (⟨key, v.death_time⟩ : timedSetMember) := by
            have hh := hsm m hmS
            rw [hkeq, hv] at hh
            cases m
            simp_all
          rw [hme] at hmE
          exact absurd ((set_nodup hset).mem_erase_iff.mp hmE).1 (by simp)
        · rw [mapFind_mapInsert_ne _ _ _ hkeq]
          exact hsm m hmS
      by_cases ht : ttl = 0
      · rw [if_pos ht] at hm
        exact hmain hm
      · rw [if_neg ht] at hm
        rcases mem_setInsert.mp hm with rfl | hmE
        · simp [mapFind_mapInsert_self]
        · exact hmain hmE
    · intro p hp hdt
      rw [hkv] at hp
      obtain ⟨pk, pv⟩ := p
      simp only at hdt ⊢
      have hfind : mapFind (mapInsert s.kv_map_ key
          ⟨value, getDeathTime_ now ttl⟩) pk = some pv :=
        mem_mapFind (mapInsert_pairwise hmap key _) hp
      rw [hes]
      by_cases hkeq : pk = key
      · subst hkeq
        rw [mapFind_mapInsert_self] at hfind
        have hpv : pv = ⟨value, getDeathTime_ now ttl⟩ := by
          injection hfind with h
          exact h.symm
        have ht : ttl ≠ 0 := by
          intro ht0
          apply hdt
          rw [hpv]
          simp [getDeathTime_, ht0]
        rw [if_neg ht]
        apply mem_setInsert.mpr
        left
        rw [hpv]
      · rw [mapFind_mapInsert_ne _ _ _ hkeq] at hfind
        have hpm : (pk, pv) ∈ s.kv_map_ := mapFind_mem hfind
        have hmem := hms (pk, pv) hpm hdt
        have hneq : (⟨pk, pv.death_time⟩ : timedSetMember) ≠
            ⟨key, v.death_time⟩ :=
          fun he => hkeq (congrArg timedSetMember.map_key he)
        have hmemE : (⟨pk, pv.death_time⟩ : timedSetMember) ∈
            s.expiration_set_.erase ⟨key, v.death_time⟩ :=
          (List.mem_erase_of_ne hneq).mpr hmem
        by_cases ht : ttl = 0
        · rw [if_pos ht]
          exact hmemE
        · rw [if_neg ht]
          exact mem_setInsert.mpr (Or.inr hmemE)
  · have hes := set_set_of_not_contains hc now value ttl
    have hfindnone : mapFind s.kv_map_ key = none := by
      cases hf : mapFind s.kv_map_ key with
      | none => rfl
      | some v => exact absurd (mapContains_iff.mpr ⟨v, hf⟩) hc
    refine ⟨hmap2, ?_, ?_, ?_⟩
    · rw [hes]
      by_cases ht : ttl = 0
      · simpa [ht] using hset
      · simpa [ht] using setInsert_pairwise hset _
    · intro m hm
      rw [hes] at hm
      rw [hkv]
      have hmain : m ∈ s.expiration_set_ →
          Option.map timedKVMember.death_time
            (mapFind (mapInsert s.kv_map_ key
              ⟨value, getDeathTime_ now ttl⟩) m.map_key) =
            some m.death_time := by
        intro hmS
        by_cases hkeq : m.map_key = key
        · have hh := hsm m hmS
          rw [hkeq, hfindnone] at hh
          simp at hh
        · rw [mapFind_mapInsert_ne _ _ _ hkeq]
          exact hsm m hmS
      by_cases ht : ttl = 0
      · rw [if_pos ht] at hm
        exact hmain hm
      · rw [if_neg ht] at hm
        rcases mem_setInsert.mp hm with rfl | hmS
        · simp [mapFind_mapInsert_self]
        · exact hmain hmS
    · intro p hp hdt
      rw [hkv] at hp
      obtain ⟨pk, pv⟩ := p
      simp only at hdt ⊢
      have hfind : mapFind (mapInsert s.kv_map_ key
          ⟨value, getDeathTime_ now ttl⟩) pk = some pv :=
        mem_mapFind (mapInsert_pairwise hmap key _) hp
      rw [hes]
      by_cases hkeq : pk = key
      · subst hkeq
        rw [mapFind_mapInsert_self] at hfind
        have hpv : pv = ⟨value, getDeathTime_ now ttl⟩ := by
          injection hfind with h
          exact h.symm
        have ht : ttl ≠ 0 := by
          intro ht0
          apply hdt
          rw [hpv]
          simp [getDeathTime_, ht0]
        rw [if_neg ht]
        apply mem_setInsert.mpr
        left
        rw [hpv]
      · rw [mapFind_mapInsert_ne _ _ _ hkeq] at hfind
        have hpm : (pk, pv) ∈ s.kv_map_ := mapFind_mem hfind
        have hmem := hms (pk, pv) hpm hdt
        by_cases ht : ttl = 0
        · rw [if_pos ht]
          exact hmem
        · rw [if_neg ht]
          exact mem_setInsert.mpr (Or.inr hmem)

theorem inv_remove {s : KVStorage} (hInv : Inv s) (key : Str) :
    Inv (s.remove key).2 := by
  obtain ⟨hmap, hset, hsm, hms⟩ := hInv
  by_cases hc : mapContains s.kv_map_ key = true
  · obtain ⟨v, hv⟩ := mapContains_iff.mp hc
    rw [remove_of_found hv]
    refine ⟨mapErase_pairwise hmap key,
      hset.sublist (List.erase_sublist _ _), ?_, ?_⟩
    · intro m hm
      have hmS : m ∈ s.expiration_set_ := List.erase_subset _ _ hm
      by_cases hkeq : m.map_key = key
      · have hme : m = (⟨key, v.death_time⟩ : timedSetMember) := by
          have hh := hsm m hmS
          rw [hkeq, hv] at hh
          cases m
          simp_all
        rw [hme] at hm
        exact absurd ((set_nodup hset).mem_erase_iff.mp hm).1 (by simp)
      · rw [mapFind_mapErase_ne _ _ hkeq]
        exact hsm m hmS
    · intro p hp hdt
      have hpe := mem_mapErase_ne hmap hp
      have hmem := hms p hpe.1 hdt
      have hneq : (⟨p.1, p.2.death_time⟩ : timedSetMember) ≠
          ⟨key, v.death_time⟩ :=
        fun he => hpe.2 (congrArg timedSetMember.map_key he)
      exact (List.mem_erase_of_ne hneq).mpr hmem
  · rw [remove_of_not_contains hc]
    exact ⟨hmap, hset, hsm, hms⟩

theorem getManySorted_state (s : KVStorage) (now : Nat) (key : Str)
    (count : Nat) : (s.getManySorted now key count).2 = s := by
  unfold KVStorage.getManySorted
  by_cases h : count = 0 <;> simp [h]

theorem inv_find_of_mem_set {s : KVStorage} (hInv : Inv s)
    {m : timedSetMember} (hm : m ∈ s.expiration_set_) :
    ∃ v, mapFind s.kv_map_ m.map_key = some v ∧
      v.death_time = m.death_time := by
  obtain ⟨-, -, hsm, -⟩ := hInv
  have h := hsm m hm
  cases hf : mapFind s.kv_map_ m.map_key with
  | none =>
    rw [hf] at h
    simp at h
  | some v =>
    rw [hf] at h
    simp at h
    exact ⟨v, rfl, h⟩

theorem removeOneExpiredEntry_step {s : KVStorage} (hInv : Inv s)
    {m : timedSetMember} {rest : List timedSetMember}
    (hs : s.expiration_set_ = m :: rest) {v : timedKVMember}
    (hv : mapFind s.kv_map_ m.map_key = some v) {now : Nat}
    (hnow : m.death_time ≤ now) :
    s.removeOneExpiredEntry now =
      (some (m.map_key, v.value), ⟨mapErase s.kv_map_ m.map_key, rest⟩) := by
  have hvd : v.death_time = m.death_time := by
    obtain ⟨w, hw, hwd⟩ :=
      inv_find_of_mem_set hInv (hs ▸ List.mem_cons_self m rest)
    rw [hv] at hw
    injection hw with hw
    rw [hw]
    exact hwd
  have hlt : ¬ m.death_time > now := not_lt.mpr hnow
  obtain ⟨kvm, es⟩ := s
  simp only at hs hv ⊢
  subst hs
  unfold KVStorage.removeOneExpiredEntry
  simp only [hlt, if_false, mapBracket_of_found hv]
  rw [remove_of_found (s := ⟨kvm, m :: rest⟩) hv]
  have hme : (⟨m.map_key, v.death_time⟩ : timedSetMember) = m := by
    cases m
    simp_all
  simp only [hme, List.erase_cons_head]

theorem inv_removeOneExpiredEntry {s : KVStorage} (hInv : Inv s) (now : Nat) :
    Inv (s.removeOneExpiredEntry now).2 := by
  cases hs : s.expiration_set_ with
  | nil =>
    unfold KVStorage.removeOneExpiredEntry
    rw [hs]
    exact hInv
  | cons m rest =>
    by_cases h : m.death_time > now
    · unfold KVStorage.removeOneExpiredEntry
      rw [hs]
      simp only [h, if_true]
      exact hInv
    · obtain ⟨v, hv, hvd⟩ :=
        inv_find_of_mem_set hInv (hs ▸ List.mem_cons_self m rest)
      rw [removeOneExpiredEntry_step hInv hs hv (le_of_not_lt h)]
      have hrw : (⟨mapErase s.kv_map_ m.map_key, rest⟩ : KVStorage) =
          (s.remove m.map_key).2 := by
        rw [remove_of_found hv]
        have hme : (⟨m.map_key, v.death_time⟩ : timedSetMember) = m := by
          cases m
          simp_all
        rw [hme, hs, List.erase_cons_head]
      rw [hrw]
      exact inv_remove hInv _

theorem inv_empty : Inv KVStorage.empty := by decide

theorem inv_constructLoop {s : KVStorage} (hInv : Inv s) (now : Nat)
    (entries : List (Str × Str × Nat)) : Inv (constructLoop s now entries) := by
  induction entries generalizing s with
  | nil => exact hInv
  | cons e rest ih =>
    obtain ⟨k, v, ttl⟩ := e
    exact ih (inv_set hInv now k v ttl)

theorem inv_construct (now : Nat) (entries : List (Str × Str × Nat)) :
    Inv (KVStorage.construct now entries) :=
  inv_constructLoop inv_empty now entries

theorem erase_clears_key {s : KVStorage} (hInv : Inv s) {k : Str}
    {old : timedKVMember} (hold : mapFind s.kv_map_ k = some old) :
    ∀ m ∈ s.expiration_set_.erase (⟨k, old.death_time⟩ : timedSetMember),
      m.map_key ≠ k := by
  intro m hm hkeq
  obtain ⟨-, hset, hsm, -⟩ := hInv
  have hmS : m ∈ s.expiration_set_ := List.erase_subset _ _ hm
  have hme : m = (⟨k, old.death_time⟩ : timedSetMember) := by
    have hh := hsm m hmS
    rw [hkeq, hold] at hh
    cases m
    simp_all
  rw [hme] at hm
  exact ((set_nodup hset).mem_erase_iff.mp hm).1 rfl

theorem removeOneExpiredEntry_none_empty {s : KVStorage}
    (hs : s.expiration_set_ = []) (now : Nat) :
    s.removeOneExpiredEntry now = (none, s) := by
  obtain ⟨kvm, es⟩ := s
  simp only at hs
  subst hs
  rfl

theorem removeOneExpiredEntry_none_future {s : KVStorage}
    {m : timedSetMember} {rest : List timedSetMember}
    (hs : s.expiration_set_ = m :: rest) {now : Nat}
    (hlt : m.death_time > now) :
    s.removeOneExpiredEntry now = (none, s) := by
  obtain ⟨kvm, es⟩ := s
  simp only at hs
  subst hs
  unfold KVStorage.removeOneExpiredEntry
  simp only [if_pos hlt]

theorem drain_spec {s : KVStorage} (hInv : Inv s) (now : Nat) {fuel : Nat}
    (hfuel : s.expiration_set_.length ≤ fuel) :
    s.drainExpired now fuel =
      (s.expiration_set_.filter (fun m => decide (m.death_time ≤ now))).map
        (fun m => (m.map_key,
          ((mapFind s.kv_map_ m.map_key).getD default).value)) := by
  induction fuel generalizing s with
  | zero =>
    have hs : s.expiration_set_ = [] :=
      List.length_eq_zero.mp (Nat.le_zero.mp hfuel)
    simp [KVStorage.drainExpired, hs]
  | succ fuel ih =>
    cases hs : s.expiration_set_ with
    | nil =>
      simp [KVStorage.drainExpired, removeOneExpiredEntry_none_empty hs now, hs]
    | cons m rest =>
      have hset : List.Pairwise timedSetComparator (m :: rest) := by
        have hp := hInv.2.1
        rwa [hs] at hp
      by_cases hlt : m.death_time > now
      · have hfilter : (m :: rest).filter
            (fun x => decide (x.death_time ≤ now)) = [] := by
          rw [List.filter_eq_nil_iff]
          intro x hx
          rcases List.mem_cons.mp hx with rfl | hx
          · simp [not_le.mpr hlt]
          · have htsc := (List.pairwise_cons.mp hset).1 x hx
            have hle : m.death_time ≤ x.death_time := by
              rcases htsc with h | ⟨h, -⟩
              · exact le_of_lt h
              · exact le_of_eq h
            simp [not_le.mpr (lt_of_lt_of_le hlt hle)]
        simp [KVStorage.drainExpired,
          removeOneExpiredEntry_none_future hs hlt, hs, hfilter]
      · obtain ⟨v, hv, hvd⟩ :=
          inv_find_of_mem_set hInv (hs ▸ List.mem_cons_self m rest)
        have hstep :=
          removeOneExpiredEntry_step hInv hs hv (le_of_not_lt hlt)
        have hInv2 : Inv (⟨mapErase s.kv_map_ m.map_key, rest⟩ : KVStorage) := by
          have := inv_removeOneExpiredEntry hInv now
          rw [hstep] at this
          exact this
        have hfuel2 :
            (⟨mapErase s.kv_map_ m.map_key, rest⟩ :
              KVStorage).expiration_set_.length ≤ fuel := by
          simp only
          have : s.expiration_set_.length = rest.length + 1 := by
            rw [hs]
            simp
          omega
        have hkeys : ∀ x ∈ rest, x.map_key ≠ m.map_key := by
          intro x hx hkeq
          have hxS : x ∈ s.expiration_set_ := by
            rw [hs]
            exact List.mem_cons_of_mem _ hx
          have hmS : m ∈ s.expiration_set_ := by
            rw [hs]
            exact List.mem_cons_self _ _
          have hxm : x = m := inv_set_key_unique hInv hxS hmS hkeq
          have htsc := (List.pairwise_cons.mp hset).1 x hx
          rw [hxm] at htsc
          exact tsc_irrefl m htsc
        rw [KVStorage.drainExpired]
        rw [hstep]
        dsimp only
        rw [ih hInv2 hfuel2]
        dsimp only
        rw [List.filter_cons_of_pos (by simp [le_of_not_lt hlt])]
        rw [List.map_cons]
        congr 1
        · simp [hv]
        · apply List.map_congr_left
          intro x hx
          have hxr : x ∈ rest := List.mem_of_mem_filter hx
          rw [mapFind_mapErase_ne _ _ (hkeys x hxr)]

theorem getManySortedLoop_mem {now : Nat} {key : Str} :
    ∀ {m : List (Str × timedKVMember)} {count : Nat} {p : Str × Str},
      p ∈ getManySortedLoop now key m count →
      ∃ e : timedKVMember, (p.1, e) ∈ m ∧ now < e.death_time ∧
        p.2 = e.value ∧ key ≤ p.1 := by
  intro m
  induction m with
  | nil =>
    intro count p h
    simp [getManySortedLoop] at h
  | cons hd tl ih =>
    intro count p h
    obtain ⟨k0, e0⟩ := hd
    rw [getManySortedLoop] at h
    by_cases hc : count = 0
    · rw [if_pos hc] at h
      simp at h
    · rw [if_neg hc] at h
      by_cases hd1 : e0.death_time ≤ now
      · rw [if_pos hd1] at h
        obtain ⟨e, he, h2, h3, h4⟩ := ih h
        exact ⟨e, List.mem_cons_of_mem _ he, h2, h3, h4⟩
      · rw [if_neg hd1] at h
        by_cases hk : key ≤ k0
        · rw [if_pos hk] at h
          rcases List.mem_cons.mp h with rfl | h
          · exact ⟨e0, List.mem_cons_self _ _, lt_of_not_le hd1, rfl, hk⟩
          · obtain ⟨e, he, h2, h3, h4⟩ := ih h
            exact ⟨e, List.mem_cons_of_mem _ he, h2, h3, h4⟩
        · rw [if_neg hk] at h
          obtain ⟨e, he, h2, h3, h4⟩ := ih h
          exact ⟨e, List.mem_cons_of_mem _ he, h2, h3, h4⟩

theorem getManySortedLoop_length (now : Nat) (key : Str) :
    ∀ (m : List (Str × timedKVMember)) (count : Nat),
      (getManySortedLoop now key m count).length ≤ count := by
  intro m
  induction m with
  | nil =>
    intro count
    simp [getManySortedLoop]
  | cons hd tl ih =>
    intro count
    obtain ⟨k0, e0⟩ := hd
    rw [getManySortedLoop]
    by_cases hc : count = 0
    · rw [if_pos hc]
      simp
    · rw [if_neg hc]
      by_cases hd1 : e0.death_time ≤ now
      · rw [if_pos hd1]
        exact ih count
      · rw [if_neg hd1]
        by_cases hk : key ≤ k0
        · rw [if_pos hk]
          simp only [List.length_cons]
          have := ih (count - 1)
          omega
        · rw [if_neg hk]
          exact ih count

theorem getManySortedLoop_pairwise (now : Nat) (key : Str) :
    ∀ {m : List (Str × timedKVMember)} (count : Nat),
      m.Pairwise (fun a b => a.1 < b.1) →
      (getManySortedLoop now key m count).Pairwise
        (fun a b => a.1 < b.1) := by
  intro m
  induction m with
  | nil =>
    intro count h
    simp [getManySortedLoop]
  | cons hd tl ih =>
    intro count h
    obtain ⟨k0, e0⟩ := hd
    rw [List.pairwise_cons] at h
    obtain ⟨hhd, htl⟩ := h
    rw [getManySortedLoop]
    by_cases hc : count = 0
    · rw [if_pos hc]
      simp
    · rw [if_neg hc]
      by_cases hd1 : e0.death_time ≤ now
      · rw [if_pos hd1]
        exact ih _ htl
      · rw [if_neg hd1]
        by_cases hk : key ≤ k0
        · rw [if_pos hk]
          refine List.pairwise_cons.mpr ⟨?_, ih _ htl⟩
          intro p hp
          obtain ⟨e, he, -, -, -⟩ := getManySortedLoop_mem hp
          exact hhd (p.1, e) he
        · rw [if_neg hk]
          exact ih _ htl

theorem constructLoop_eq_foldl (s : KVStorage) (now : Nat)
    (entries : List (Str × Str × Nat)) :
    constructLoop s now entries =
      entries.foldl (fun t e => t.set now e.1 e.2.1 e.2.2) s := by
  induction entries generalizing s with
  | nil => rfl
  | cons e rest ih =>
    obtain ⟨k, v, t⟩ := e
    rw [constructLoop, ih, List.foldl_cons]

theorem mapFind_constructLoop (s : KVStorage) (now : Nat)
    (entries : List (Str × Str × Nat)) (k : Str) :
    mapFind (constructLoop s now entries).kv_map_ k =
      (match entries.reverse.find? (fun e => decide (e.1 = k)) with
        | some e => some ⟨e.2.1, getDeathTime_ now e.2.2⟩
        | none => mapFind s.kv_map_ k) := by
  induction entries generalizing s with
  | nil => simp [constructLoop]
  | cons e rest ih =>
    obtain ⟨ek, ev, et⟩ := e
    rw [constructLoop, ih, List.reverse_cons, List.find?_append]
    cases hr : rest.reverse.find? (fun e => decide (e.1 = k)) with
    | some e2 => simp [Option.or]
    | none =>
      simp only [Option.or]
      by_cases hk : ek = k
      · subst hk
        simp [List.find?, set_kv_map, mapFind_mapInsert_self]
      · have hk2 : k ≠ ek := fun he => hk he.symm
        simp [List.find?, hk, set_kv_map, mapFind_mapInsert_ne _ _ _ hk2]

/-- Claim C1, counterexample to the stated biconditional: after
`set("a", "v", 1)` at clock `2^64 - 2`, the computed death time wraps to the
`maxTime_` sentinel, so the pair `(maxTime_, "a")` sits in the expiration
index although the key's death time in the primary map is the sentinel and
hence not finite — the "vice versa" direction of the claimed equivalence
fails at this state. -/
theorem C1_counterexample :
    ¬ ((⟨['a'], maxTime_⟩ : timedSetMember) ∈
          (KVStorage.empty.set (2 ^ 64 - 2) ['a'] ['v'] 1).expiration_set_ →
        Option.map timedKVMember.death_time
            (mapFind (KVStorage.empty.set (2 ^ 64 - 2) ['a'] ['v'] 1).kv_map_
              ['a']) = some maxTime_ ∧ maxTime_ ≠ maxTime_) := by
  decide

/-- Claim C1 (amended): every operation — construction, `set`, `get`,
`remove`, `getManySorted`, `removeOneExpiredEntry` — preserves the
dual-structure invariant `Inv`: every expiration-index pair `(t, k)` has `k`
in the primary map with death time exactly `t`, every primary-map key whose
death time is not the `maxTime_` sentinel has its pair in the index (an
index pair may carry the sentinel itself when wrap-around produced it), and
each key has at most one expiration-index entry at any time. -/
theorem C1_invariant_preserved (s : KVStorage) (now : Nat) (k v : Str)
    (ttl : Nat) (key : Str) (count : Nat)
    (entries : List (Str × Str × Nat)) :
    Inv KVStorage.empty ∧
    Inv (KVStorage.construct now entries) ∧
    (Inv s → Inv (s.set now k v ttl)) ∧
    (Inv s → Inv (s.remove k).2) ∧
    (Inv s → Inv (s.get now k).2) ∧
    (Inv s → Inv (s.getManySorted now key count).2) ∧
    (Inv s → Inv (s.removeOneExpiredEntry now).2) ∧
    (Inv s → ∀ m1 ∈ s.expiration_set_, ∀ m2 ∈ s.expiration_set_,
      m1.map_key = m2.map_key → m1 = m2) := by
  refine ⟨inv_empty, inv_construct now entries,
    fun h => inv_set h now k v ttl,
    fun h => inv_remove h k, ?_, ?_,
    fun h => inv_removeOneExpiredEntry h now,
    fun h m1 h1 m2 h2 hk => inv_set_key_unique h h1 h2 hk⟩
  · intro h
    rw [get_state]
    exact h
  · intro h
    rw [getManySorted_state]
    exact h

theorem C1_invariant_preserved_witness :
    Inv ((KVStorage.empty.set 0 ['a'] ['1'] 5).remove ['a']).2 :=
  (C1_invariant_preserved (KVStorage.empty.set 0 ['a'] ['1'] 5) 0 ['a'] ['1']
    5 ['a'] 1 []).2.2.2.1 (by decide)

/-- Claim C2, counterexample to "get returns the stored value exactly when
the key is present and its death_time is strictly greater than
current_time()": a key stored with `ttl = 0` carries death time `maxTime_`;
at clock `maxTime_` that death time is not strictly greater than the clock,
yet `get` still returns the value (the key has no expiration-index entry,
so `keyAvailable` takes the infinite-TTL branch). -/
theorem C2_counterexample :
    ¬ (((KVStorage.empty.set 0 ['a'] ['v'] 0).get maxTime_ ['a']).1 =
          some ['v'] →
        maxTime_ <
          ((mapFind (KVStorage.empty.set 0 ['a'] ['v'] 0).kv_map_
              ['a']).getD default).death_time) := by
  decide

/-- Claim C2 (amended): on an invariant state, `get` of a missing key
returns nothing; for a present key whose death time is finite (not the
`maxTime_` sentinel) `get` returns the stored value exactly when the death
time is strictly greater than the clock — in particular a finite death time
equal to the clock means unavailable; and a key set with `ttl = T > 0` at
time `t0` with `t0 + T < 2^64` (no wrap-around) is retrievable at exactly
the clock values strictly below `t0 + T`. -/
theorem C2_get_availability {s : KVStorage} (hInv : Inv s) (now : Nat)
    (k : Str) :
    (mapFind s.kv_map_ k = none → (s.get now k).1 = none) ∧
    (∀ v : timedKVMember, mapFind s.kv_map_ k = some v →
      v.death_time ≠ maxTime_ →
      ((s.get now k).1 = some v.value ↔ now < v.death_time)) ∧
    (∀ value : Str, ∀ t0 T : Nat, 0 < T → t0 + T < 2 ^ 64 → ∀ n2 : Nat,
      ((s.set t0 k value T).get n2 k).1 = some value ↔ n2 < t0 + T) := by
  refine ⟨fun h => get_fst_of_none h now, ?_, ?_⟩
  · intro v hv hne
    have hmem : (⟨k, v.death_time⟩ : timedSetMember) ∈ s.expiration_set_ := by
      obtain ⟨-, -, -, hms⟩ := hInv
      exact hms (k, v) (mapFind_mem hv) hne
    rw [get_fst_of_found hv now, keyAvailable_of_found hv now, if_pos hmem]
    by_cases hn : now < v.death_time
    · simp [hn]
    · simp [hn]
  · intro value t0 T hT hlt n2
    have hT0 : T ≠ 0 := Nat.pos_iff_ne_zero.mp hT
    have hdt : getDeathTime_ t0 T = t0 + T := by
      rw [getDeathTime_, if_neg hT0, Nat.add_comm]
      exact Nat.mod_eq_of_lt hlt
    have hfind : mapFind (s.set t0 k value T).kv_map_ k =
        some ⟨value, t0 + T⟩ := by
      rw [set_kv_map, hdt]
      exact mapFind_mapInsert_self _ _ _
    have hmem : (⟨k, t0 + T⟩ : timedSetMember) ∈
        (s.set t0 k value T).expiration_set_ := by
      by_cases hc : mapContains s.kv_map_ k = true
      · obtain ⟨old, hold⟩ := mapContains_iff.mp hc
        rw [set_set_of_found hold, if_neg hT0, hdt]
        exact mem_setInsert.mpr (Or.inl rfl)
      · rw [set_set_of_not_contains hc, if_neg hT0, hdt]
        exact mem_setInsert.mpr (Or.inl rfl)
    rw [get_fst_of_found hfind n2, keyAvailable_of_found hfind n2,
      if_pos hmem]
    by_cases hn : n2 < t0 + T
    · simp [hn]
    · simp [hn]

theorem C2_get_availability_witness :
    ((KVStorage.empty.set 0 ['a'] ['1'] 5).get 3 ['a']).1 = some ['1'] :=
  ((C2_get_availability (s := KVStorage.empty.set 0 ['a'] ['1'] 5)
    (by decide) 3 ['a']).2.1 ⟨['1'], 5⟩ (by decide) (by decide)).mpr
    (by decide)

/-- Claim C3: on an invariant state, `removeOneExpiredEntry` returns
nothing exactly when every expiration-index entry has a death time still in
the future (in particular when the index is empty), and then leaves the
storage unchanged; otherwise the head of the index — which is minimal in
the `(death_time, key)` order — is removed from both structures and its
key and stored value are returned; draining at a fixed clock returns
exactly the index entries with `death_time ≤ now`, in ascending
`(death_time, key)` order (equal death times in ascending key order), each
exactly once, and every drained entry was expired. -/
theorem C3_removeOneExpiredEntry {s : KVStorage} (hInv : Inv s) (now : Nat) :
    ((s.removeOneExpiredEntry now).1 = none ↔
      ∀ m ∈ s.expiration_set_, now < m.death_time) ∧
    ((s.removeOneExpiredEntry now).1 = none →
      (s.removeOneExpiredEntry now).2 = s) ∧
    (∀ m rest, s.expiration_set_ = m :: rest →
      (∀ x ∈ s.expiration_set_, m = x ∨ timedSetComparator m x) ∧
      (m.death_time ≤ now →
        s.removeOneExpiredEntry now =
          (some (m.map_key,
              ((mapFind s.kv_map_ m.map_key).getD default).value),
            ⟨mapErase s.kv_map_ m.map_key, rest⟩))) ∧
    (s.drainExpired now s.expiration_set_.length =
      (s.expiration_set_.filter (fun m => decide (m.death_time ≤ now))).map
        (fun m => (m.map_key,
          ((mapFind s.kv_map_ m.map_key).getD default).value))) ∧
    (s.expiration_set_.filter
        (fun m => decide (m.death_time ≤ now))).Pairwise
      timedSetComparator ∧
    (∀ p ∈ s.drainExpired now s.expiration_set_.length,
      ∃ m ∈ s.expiration_set_, m.death_time ≤ now ∧ p.1 = m.map_key) := by
  have hdrain := drain_spec hInv now (le_refl s.expiration_set_.length)
  refine ⟨?_, ?_, ?_, hdrain, (hInv.2.1).sublist (List.filter_sublist _), ?_⟩
  · cases hs : s.expiration_set_ with
    | nil =>
      rw [removeOneExpiredEntry_none_empty hs now]
      simp
    | cons m rest =>
      have hset : List.Pairwise timedSetComparator (m :: rest) := by
        have hp := hInv.2.1
        rwa [hs] at hp
      by_cases hlt : m.death_time > now
      · rw [removeOneExpiredEntry_none_future hs hlt]
        simp only [true_iff]
        intro x hx
        rcases List.mem_cons.mp hx with rfl | hx
        · exact hlt
        · have htsc := (List.pairwise_cons.mp hset).1 x hx
          rcases htsc with h | ⟨h, -⟩
          · exact lt_trans hlt h
          · exact h ▸ hlt
      · obtain ⟨v, hv, -⟩ :=
          inv_find_of_mem_set hInv (hs ▸ List.mem_cons_self m rest)
        rw [removeOneExpiredEntry_step hInv hs hv (le_of_not_lt hlt)]
        simp only
        constructor
        · intro h
          exact absurd h (by simp)
        · intro hall
          exact absurd (hall m (List.mem_cons_self m rest))
            (not_lt.mpr (le_of_not_lt hlt))
  · cases hs : s.expiration_set_ with
    | nil =>
      rw [removeOneExpiredEntry_none_empty hs now]
      intro _
      rfl
    | cons m rest =>
      by_cases hlt : m.death_time > now
      · rw [removeOneExpiredEntry_none_future hs hlt]
        intro _
        rfl
      · obtain ⟨v, hv, -⟩ :=
          inv_find_of_mem_set hInv (hs ▸ List.mem_cons_self m rest)
        rw [removeOneExpiredEntry_step hInv hs hv (le_of_not_lt hlt)]
        intro h
        simp at h
  · intro m rest hs
    constructor
    · intro x hx
      rw [hs] at hx
      rcases List.mem_cons.mp hx with rfl | hx
      · exact Or.inl rfl
      · right
        have hset : List.Pairwise timedSetComparator (m :: rest) := by
          have hp := hInv.2.1
          rwa [hs] at hp
        exact (List.pairwise_cons.mp hset).1 x hx
    · intro hle
      obtain ⟨v, hv, -⟩ :=
        inv_find_of_mem_set hInv (hs ▸ List.mem_cons_self m rest)
      rw [removeOneExpiredEntry_step hInv hs hv hle]
      simp [hv]
  · intro p hp
    rw [hdrain] at hp
    obtain ⟨m, hm, rfl⟩ := List.mem_map.mp hp
    have hmf := List.mem_filter.mp hm
    exact ⟨m, hmf.1, by simpa using hmf.2, rfl⟩

theorem C3_removeOneExpiredEntry_witness :
    ¬ (((KVStorage.construct 0
        [(['a'], ['g'], 2)]).removeOneExpiredEntry 2).1 = none) := by
  have h := (C3_removeOneExpiredEntry
    (s := KVStorage.construct 0 [(['a'], ['g'], 2)]) (by decide) 2).1
  intro hn
  exact absurd (h.mp hn ⟨['a'], 2⟩ (by decide)) (by decide)

/-- Claim C4: on an invariant state, `getManySorted(key, count)` returns
only entries whose stored death time is strictly greater than the clock,
returns at most `count` entries, returns keys in strictly ascending order
all lexicographically at or above the start key, and returns the empty
sequence when `count = 0`. -/
theorem C4_getManySorted {s : KVStorage} (hInv : Inv s) (now : Nat)
    (key : Str) (count : Nat) :
    (∀ p ∈ (s.getManySorted now key count).1,
      ∃ e : timedKVMember, mapFind s.kv_map_ p.1 = some e ∧
        now < e.death_time ∧ p.2 = e.value ∧ key ≤ p.1) ∧
    (s.getManySorted now key count).1.length ≤ count ∧
    (s.getManySorted now key count).1.Pairwise (fun a b => a.1 < b.1) ∧
    (count = 0 → (s.getManySorted now key count).1 = []) := by
  unfold KVStorage.getManySorted
  by_cases hc : count = 0
  · simp [hc]
  · rw [if_neg hc]
    dsimp only
    refine ⟨?_, getManySortedLoop_length now key s.kv_map_ count,
      getManySortedLoop_pairwise now key count hInv.1,
      fun h => absurd h hc⟩
    intro p hp
    obtain ⟨e, he, h2, h3, h4⟩ := getManySortedLoop_mem hp
    exact ⟨e, mem_mapFind hInv.1 he, h2, h3, h4⟩

theorem C4_getManySorted_witness :
    ((KVStorage.construct 0 [(['a'], ['1'], 2), (['b'], ['2'], 0),
      (['d'], ['4'], 3), (['e'], ['5'], 1),
      (['x'], ['j', '9'], 2)]).getManySorted 1 ['c'] 3).1.length ≤ 3 :=
  (C4_getManySorted (by decide) 1 ['c'] 3).2.1

/-- Claim C5: on an invariant state, `set` on an existing key
unconditionally replaces the key's value and death time with the newly
computed ones (the `maxTime_` sentinel when `ttl = 0`, else the clock plus
`ttl`), covering finite-to-infinite and infinite-to-finite transitions; any
prior expiration-index entry for the key is gone, a fresh one exists
exactly for the new death time, and only when `ttl ≠ 0`. -/
theorem C5_set_overwrite {s : KVStorage} (hInv : Inv s) {k : Str}
    {old : timedKVMember} (hold : mapFind s.kv_map_ k = some old)
    (now : Nat) (v : Str) (ttl : Nat) :
    mapFind (s.set now k v ttl).kv_map_ k =
      some ⟨v, getDeathTime_ now ttl⟩ ∧
    (∀ m ∈ (s.set now k v ttl).expiration_set_, m.map_key = k →
      ttl ≠ 0 ∧ m = ⟨k, getDeathTime_ now ttl⟩) ∧
    (ttl ≠ 0 → (⟨k, getDeathTime_ now ttl⟩ : timedSetMember) ∈
      (s.set now k v ttl).expiration_set_) := by
  have hes := set_set_of_found hold now v ttl
  refine ⟨by rw [set_kv_map]; exact mapFind_mapInsert_self _ _ _, ?_, ?_⟩
  · intro m hm hkeq
    rw [hes] at hm
    by_cases ht : ttl = 0
    · rw [if_pos ht] at hm
      exact absurd hkeq (erase_clears_key hInv hold m hm)
    · rw [if_neg ht] at hm
      rcases mem_setInsert.mp hm with rfl | hm
      · exact ⟨ht, rfl⟩
      · exact absurd hkeq (erase_clears_key hInv hold m hm)
  · intro ht
    rw [hes, if_neg ht]
    exact mem_setInsert.mpr (Or.inl rfl)

theorem C5_set_overwrite_witness :
    mapFind ((KVStorage.empty.set 0 ['a'] ['1'] 5).set 2
      ['a'] ['2'] 0).kv_map_ ['a'] = some ⟨['2'], maxTime_⟩ := by
  have h := (@C5_set_overwrite (KVStorage.empty.set 0 ['a'] ['1'] 5)
    (by decide) ['a'] ⟨['1'], 5⟩ (by decide) 2 ['2'] 0).1
  have he : getDeathTime_ 2 0 = maxTime_ := by decide
  rw [he] at h
  exact h

/-- Claim C6: on an invariant state, a key stored with `ttl = 0` is
returned by `get` at every clock value — including `maxTime_`, where the
stored sentinel death time equals the clock — as long as no intervening
`remove` or overwrite touched it (here: immediately after the `set`). -/
theorem C6_ttl_zero_immortal {s : KVStorage} (hInv : Inv s) (now0 : Nat)
    (k v : Str) (now : Nat) :
    ((s.set now0 k v 0).get now k).1 = some v := by
  have hdt : getDeathTime_ now0 0 = maxTime_ := by
    simp [getDeathTime_]
  have hfind : mapFind (s.set now0 k v 0).kv_map_ k = some ⟨v, maxTime_⟩ := by
    rw [set_kv_map, hdt]
    exact mapFind_mapInsert_self _ _ _
  have hnotmem : (⟨k, maxTime_⟩ : timedSetMember) ∉
      (s.set now0 k v 0).expiration_set_ := by
    by_cases hc : mapContains s.kv_map_ k = true
    · obtain ⟨old, hold⟩ := mapContains_iff.mp hc
      rw [set_set_of_found hold, if_pos rfl]
      intro hmem
      exact erase_clears_key hInv hold _ hmem rfl
    · have hfn : mapFind s.kv_map_ k = none := by
        cases hf : mapFind s.kv_map_ k with
        | none => rfl
        | some w => exact absurd (mapContains_iff.mpr ⟨w, hf⟩) hc
      rw [set_set_of_not_contains hc, if_pos rfl]
      intro hmem
      obtain ⟨w, hw, -⟩ := inv_find_of_mem_set hInv hmem
      dsimp only at hw
      rw [hfn] at hw
      exact Option.noConfusion hw
  have hka : (s.set now0 k v 0).keyAvailable now k = true := by
    rw [keyAvailable_of_found hfind now]
    dsimp only
    rw [if_neg hnotmem]
  rw [get_fst_of_found hfind now, if_pos hka]

theorem C6_ttl_zero_immortal_witness :
    ((KVStorage.empty.set 0 ['a'] ['v'] 0).get maxTime_ ['a']).1 =
      some ['v'] :=
  C6_ttl_zero_immortal (by decide : Inv KVStorage.empty) 0 ['a'] ['v']
    maxTime_

/-- Claim C7: on an invariant state, `remove(key)` returns exactly the
prior presence of the key in the primary map (expired-but-not-evicted keys
included — the clock is never consulted), deletes the key from both the
primary map and the expiration index, and a second `remove` of the same key
returns `false`. -/
theorem C7_remove {s : KVStorage} (hInv : Inv s) (k : Str) :
    (s.remove k).1 = mapContains s.kv_map_ k ∧
    mapFind (s.remove k).2.kv_map_ k = none ∧
    (∀ m ∈ (s.remove k).2.expiration_set_, m.map_key ≠ k) ∧
    ((s.remove k).2.remove k).1 = false := by
  by_cases hc : mapContains s.kv_map_ k = true
  · obtain ⟨v, hv⟩ := mapContains_iff.mp hc
    have hfe : mapFind (mapErase s.kv_map_ k) k = none :=
      mapFind_mapErase_self hInv.1 k
    rw [remove_of_found hv]
    dsimp only
    refine ⟨hc.symm, hfe, ?_, ?_⟩
    · exact fun m hm => erase_clears_key hInv hv m hm
    · have hc2 : ¬ mapContains (mapErase s.kv_map_ k) k = true := by
        simp [mapContains, hfe]
      rw [remove_of_not_contains hc2]
  · have hfn : mapFind s.kv_map_ k = none := by
      cases hf : mapFind s.kv_map_ k with
      | none => rfl
      | some w => exact absurd (mapContains_iff.mpr ⟨w, hf⟩) hc
    have hcb : mapContains s.kv_map_ k = false := by
      simp [mapContains, hfn]
    rw [remove_of_not_contains hc]
    dsimp only
    refine ⟨hcb.symm, hfn, ?_, ?_⟩
    · intro m hm hkeq
      obtain ⟨w, hw, -⟩ := inv_find_of_mem_set hInv hm
      rw [hkeq, hfn] at hw
      exact Option.noConfusion hw
    · rw [remove_of_not_contains hc]

theorem C7_remove_witness :
    ((KVStorage.empty.set 0 ['a'] ['1'] 1).remove ['a']).1 = true ∧
    (((KVStorage.empty.set 0 ['a'] ['1'] 1).remove ['a']).2.remove
      ['a']).1 = false := by
  have h := C7_remove (s := KVStorage.empty.set 0 ['a'] ['1'] 1)
    (by decide) ['a']
  exact ⟨h.1.trans (by decide), h.2.2.2⟩

/-- Claim C8: constructing the storage from a sequence of
`(key, value, ttl)` triples produces exactly the state obtained by folding
`set` over the triples in input order starting from the empty storage; in
particular the primary-map binding of any key is determined by the last
triple for that key in input order (its value, and a death time computed by
`getDeathTime_`), and is absent when no triple mentions the key. -/
theorem C8_construct_refines_set (now : Nat)
    (entries : List (Str × Str × Nat)) (k : Str) :
    KVStorage.construct now entries =
      entries.foldl (fun t e => t.set now e.1 e.2.1 e.2.2)
        KVStorage.empty ∧
    mapFind (KVStorage.construct now entries).kv_map_ k =
      (match entries.reverse.find? (fun e => decide (e.1 = k)) with
        | some e => some ⟨e.2.1, getDeathTime_ now e.2.2⟩
        | none => none) := by
  refine ⟨constructLoop_eq_foldl _ now entries, ?_⟩
  unfold KVStorage.construct
  rw [mapFind_constructLoop]
  cases hr : entries.reverse.find? (fun e => decide (e.1 = k)) with
  | some e => rfl
  | none => rfl

/-- Claim C9: `get` and `getManySorted` never modify the storage — the
primary map and the expiration index are exactly as before the call — so an
entry whose death time has passed remains physically stored after a read
and a later `remove` of its key still returns `true`. -/
theorem C9_read_only (s : KVStorage) (now : Nat) (k key : Str)
    (count : Nat) (e : timedKVMember)
    (hfind : mapFind s.kv_map_ k = some e)
    (hexp : e.death_time ≤ now) :
    (s.get now k).2 = s ∧
    (s.getManySorted now key count).2 = s ∧
    mapFind ((s.get now k).2).kv_map_ k = some e ∧
    (((s.get now k).2).remove k).1 = true := by
  have hne : e.death_time ≤ now := hexp
  refine ⟨get_state s now k, getManySorted_state s now key count, ?_, ?_⟩
  · rw [get_state]
    exact hfind
  · rw [get_state, remove_of_found hfind]

theorem C9_read_only_witness :
    (((KVStorage.empty.set 0 ['a'] ['1'] 1).get 5 ['a']).2.remove
      ['a']).1 = true :=
  (C9_read_only (KVStorage.empty.set 0 ['a'] ['1'] 1) 5 ['a'] ['b'] 2
    ⟨['1'], 1⟩ (by decide) (by decide)).2.2.2

/-- Claim C10: for `set` with `ttl > 0` the stored death time equals
`(current_time + ttl) mod 2^64`, and the `(key, death_time)` pair is
inserted into the expiration index regardless of the wrapped value — so a
wrapped sum at or below the clock creates an immediately expired entry, and
a wrapped sum equal to `maxTime_` yields a finite-TTL entry carrying the
sentinel while still present in the index. -/
theorem C10_wrap (s : KVStorage) (now ttl : Nat) (k v : Str)
    (h : 0 < ttl) :
    getDeathTime_ now ttl = (now + ttl) % 2 ^ 64 ∧
    mapFind (s.set now k v ttl).kv_map_ k =
      some ⟨v, (now + ttl) % 2 ^ 64⟩ ∧
    (⟨k, (now + ttl) % 2 ^ 64⟩ : timedSetMember) ∈
      (s.set now k v ttl).expiration_set_ := by
  have ht : ttl ≠ 0 := Nat.pos_iff_ne_zero.mp h
  have hdt : getDeathTime_ now ttl = (now + ttl) % 2 ^ 64 := by
    rw [getDeathTime_, if_neg ht, Nat.add_comm]
  refine ⟨hdt, ?_, ?_⟩
  · rw [set_kv_map, hdt]
    exact mapFind_mapInsert_self _ _ _
  · by_cases hc : mapContains s.kv_map_ k = true
    · obtain ⟨old, hold⟩ := mapContains_iff.mp hc
      rw [set_set_of_found hold, if_neg ht, hdt]
      exact mem_setInsert.mpr (Or.inl rfl)
    · rw [set_set_of_not_contains hc, if_neg ht, hdt]
      exact mem_setInsert.mpr (Or.inl rfl)

theorem C10_wrap_witness :
    (0 : Nat) < 1 ∧
    (⟨['k'], maxTime_⟩ : timedSetMember) ∈
      (KVStorage.empty.set (2 ^ 64 - 2) ['k'] ['v'] 1).expiration_set_ ∧
    mapFind (KVStorage.empty.set (2 ^ 64 - 1) ['k'] ['v']
      1).kv_map_ ['k'] = some ⟨['v'], 0⟩ ∧
    ((KVStorage.empty.set (2 ^ 64 - 1) ['k'] ['v'] 1).get (2 ^ 64 - 1)
      ['k']).1 = none := by
  refine ⟨by decide, ?_, by decide, by decide⟩
  have h := (C10_wrap KVStorage.empty (2 ^ 64 - 2) 1 ['k'] ['v']
    (by decide)).2.2
  have he : (2 ^ 64 - 2 + 1) % 2 ^ 64 = maxTime_ := by decide
  rw [he] at h
  exact h

example :
    ((KVStorage.empty.set 0 ['a'] ['1'] 0).get 0 ['a']).1 = some ['1'] := by
  decide

example :
    ((KVStorage.empty.set 0 ['a'] ['1'] 2).get 2 ['a']).1 = none := by
  decide

example :
    ((KVStorage.empty.set 0 ['a'] ['1'] 2).get 1 ['a']).1 = some ['1'] := by
  decide

end KV
